import Mathlib

/-!
Verification of the Cutting_Noise_Video pipeline.

This file gives a shallow embedding of the pure parts of the repository:
the silence-removal analysis of `01_CutSilent.py` (`remove_silence` and the
CUDA kernel `detect_silence_gpu`), the output-path computation, and the
SRT timestamp formatting of `02_Subtitles.py` (`write_srt`) together with
the timestamp parser of `03_text_to_Speech.py`
(`AudioSynchronizer.parse_timestamp`).

Python floats are modelled as exact rationals, except where IEEE special
values matter (normalization of an all-zero signal produces `0.0 / 0.0`,
i.e. NaN): there the value type `F` below carries NaN and infinities
explicitly.  Python strings are modelled as `List Char`.
-/

namespace CutSilent

/-- Model of an IEEE float value as it occurs in this pipeline: a finite
rational, NaN, or a signed infinity.  Only exact rational arithmetic
occurs in the analysed code apart from the normalizing division, so finite
values carry a `ℚ`. -/
inductive F where
  | nan : F
  | pinf : F
  | ninf : F
  | val : ℚ → F
deriving DecidableEq, Repr

/-- IEEE division restricted to the cases reached by the pipeline:
`0/0` is NaN, `x/0` for `x ≠ 0` is a signed infinity, and division of
finite values by a nonzero finite value is exact rational division. -/
def F.div : F → F → F
  | F.val a, F.val b =>
      if b = 0 then
        if a = 0 then F.nan
        else if 0 < a then F.pinf else F.ninf
      else F.val (a / b)
  | _, _ => F.nan

/-- IEEE comparison `|x| < t` for a finite rational threshold `t`:
false on NaN (any comparison with NaN is false) and on infinities
(whose absolute value exceeds every finite threshold). -/
def F.absLt (x : F) (t : ℚ) : Bool :=
  match x with
  | F.val q => decide (|q| < t)
  | _ => false

/-- `audio_data.astype(np.float32) / np.max(np.abs(audio_data))`
(01_CutSilent.py line 78): the raw 16-bit samples are divided by the
maximum absolute sample.  On an all-zero signal the divisor is `0` and
every quotient is `0.0 / 0.0`, i.e. NaN. -/
def normalizeAudio (raw : List ℤ) : List F :=
  let m : ℕ := (raw.map Int.natAbs).foldr max 0
  raw.map (fun (x : ℤ) => F.div (F.val (x : ℚ)) (F.val (m : ℚ)))

/-- CPU silence classification, `np.abs(audio_data) < threshold`
(01_CutSilent.py line 94): one boolean per sample. -/
def detect_silence_cpu (audio : List F) (threshold : ℚ) : List Bool :=
  audio.map (fun x => x.absLt threshold)

/-- GPU silence classification (01_CutSilent.py lines 53-58): the CUDA
kernel runs one thread per grid index; a thread with `idx <
audio_data.shape[0]` writes `abs(audio_data[idx]) < threshold` into slot
`idx`.  The resulting array, read back to the host, is modelled as the
list of per-index results. -/
def detect_silence_gpu (audio : List F) (threshold : ℚ) : List Bool :=
  (List.range audio.length).map (fun idx => (audio.getD idx F.nan).absLt threshold)

/-- `window_size = int(44100 * min_silence_duration)`
(01_CutSilent.py line 100).  `min_silence_duration` is a nonnegative
number of seconds; Python `int` truncates, which on nonnegative values is
the floor. -/
def window_size (min_silence_duration : ℚ) : ℕ :=
  (⌊(44100 : ℚ) * min_silence_duration⌋).toNat

/-- `num_windows = len(is_silent) // window_size` (01_CutSilent.py
line 101). -/
def num_windows (is_silent : List Bool) (w : ℕ) : ℕ :=
  is_silent.length / w

/-- `window = is_silent[i * window_size:(i + 1) * window_size]`
(01_CutSilent.py line 108). -/
def windowOf (is_silent : List Bool) (w i : ℕ) : List Bool :=
  (is_silent.drop (i * w)).take w

/-- `np.mean(window)` on a boolean window: the fraction of `True`
entries (01_CutSilent.py line 109). -/
def windowMean (is_silent : List Bool) (w i : ℕ) : ℚ :=
  (((windowOf is_silent w i).countP id : ℕ) : ℚ) / ((windowOf is_silent w i).length : ℚ)

/-- The branch taken for window `i`: the loop body `continue`s when
`np.mean(window) < 0.8` and closes a segment otherwise, so window `i`
counts as silent exactly when its mean is not below `0.8`
(01_CutSilent.py lines 109-111). -/
def silentWindow (is_silent : List Bool) (w i : ℕ) : Bool :=
  !(decide (windowMean is_silent w i < (8 : ℚ) / 10))

/-- The segment-collection loop of `remove_silence` (01_CutSilent.py
lines 103-117), processing the listed window indices in order.  State:
the collected `keep_segments` and the running `start_time`.  A silent
window `i` appends `(start_time, i * window_size / 44100)` when
`start_time` is strictly earlier, then advances `start_time` to
`(i + 1) * window_size / 44100`; a voiced window is skipped. -/
def segLoop (sil : ℕ → Bool) (w : ℕ) :
    List ℕ → List (ℚ × ℚ) × ℚ → List (ℚ × ℚ) × ℚ
  | [], st => st
  | i :: rest, (segs, s) =>
      if sil i then
        let e : ℚ := (i * w : ℕ) / 44100
        segLoop sil w rest
          (if s < e then segs ++ [(s, e)] else segs, ((i + 1) * w : ℕ) / 44100)
      else
        segLoop sil w rest (segs, s)

/-- The tail step (01_CutSilent.py lines 119-120): after the loop, if
`start_time < video.duration` the interval up to the duration is kept. -/
def withTail (st : List (ℚ × ℚ) × ℚ) (duration : ℚ) : List (ℚ × ℚ) :=
  if st.2 < duration then st.1 ++ [(st.2, duration)] else st.1

/-- The full keep-segment derivation of `remove_silence`
(01_CutSilent.py lines 99-120) from a per-sample classification list, a
window size and the source duration. -/
def keepSegments (is_silent : List Bool) (w : ℕ) (duration : ℚ) : List (ℚ × ℚ) :=
  withTail (segLoop (fun i => silentWindow is_silent w i) w
    (List.range (num_windows is_silent w)) ([], 0)) duration

/-- The keep-segment list computed by `remove_silence` from the
normalized samples, threshold, `min_silence_duration` and source
duration (01_CutSilent.py lines 94-120, CPU path). -/
def remove_silence_segments (audio : List F) (threshold : ℚ)
    (min_silence_duration : ℚ) (duration : ℚ) : List (ℚ × ℚ) :=
  keepSegments (detect_silence_cpu audio threshold)
    (window_size min_silence_duration) duration

/-- `remove_silence` writes an output file exactly when `keep_segments`
is nonempty (01_CutSilent.py line 125: `if keep_segments:`). -/
def outputWritten (is_silent : List Bool) (w : ℕ) (duration : ℚ) : Bool :=
  !(keepSegments is_silent w duration).isEmpty


/-- The end-to-end test waveform: a 10-second mono signal at 44100 Hz
(441000 samples) whose samples are `0` during seconds `[3, 5)` and `1/2`
elsewhere (normalized amplitudes; `|0| < 0.01 ≤ |1/2|`). -/
def sampleC8 (n : ℕ) : F :=
  if 3 * 44100 ≤ n ∧ n < 5 * 44100 then F.val 0 else F.val (1 / 2)

/-- Per-sample silence indicator of the test waveform at threshold
`0.01`: exactly the samples of seconds `[3, 5)`. -/
def predC8 : ℕ → Bool := fun n => decide (3 * 44100 ≤ n ∧ n < 5 * 44100)

/-- The test waveform as a sample list. -/
def xsC8 : List F := (List.range 441000).map sampleC8

/-- The classification list of the test waveform. -/
def lC8 : List Bool := detect_silence_cpu xsC8 (1 / 100)

/-- Helper for Python `rsplit('.', 1)`: on the reversed character list,
drop characters up to and including the first `'.'`; `none` when the
string has no `'.'`. -/
def stripExtRev : List Char → Option (List Char)
  | [] => none
  | c :: rest => if c = '.' then some rest else stripExtRev rest

/-- `video_path.rsplit('.', 1)[0]`: everything before the last `'.'`,
or the whole string when there is none. -/
def pyStem (p : List Char) : List Char :=
  match stripExtRev p.reverse with
  | some r => r.reverse
  | none => p

/-- `output_path = video_path.rsplit('.', 1)[0] + '_no_silence.mp4'`
(01_CutSilent.py line 132). -/
def output_path (p : List Char) : List Char :=
  pyStem p ++ "_no_silence.mp4".data

end CutSilent

namespace Subtitles

/-- Python float `//` on exact nonzero operands: `a // b = ⌊a / b⌋`
(as a float, here an exact rational). -/
def pyFloorDiv (a b : ℚ) : ℚ := ((⌊a / b⌋ : ℤ) : ℚ)

/-- Python float `%`: `a % b = a - b * ⌊a / b⌋` for `b ≠ 0`. -/
def pyMod (a b : ℚ) : ℚ := a - b * ((⌊a / b⌋ : ℤ) : ℚ)

/-- Python `int()` on a float: truncation toward zero. -/
def pyInt (q : ℚ) : ℤ := if 0 ≤ q then ⌊q⌋ else ⌈q⌉

/-- The character for a single decimal digit `d < 10`. -/
def digitChar (d : ℕ) : Char := Char.ofNat (48 + d)

/-- Little-endian decimal digits of `n`, computed with explicit fuel so
the kernel can evaluate it; `fuel ≥ n` suffices. -/
def revDigitsAux : ℕ → ℕ → List ℕ
  | _, 0 => []
  | 0, _ + 1 => []
  | fuel + 1, n + 1 => ((n + 1) % 10) :: revDigitsAux fuel ((n + 1) / 10)

/-- Python `str` of a nonnegative integer: its decimal digits, most
significant first, with `"0"` for zero. -/
def natRepr (n : ℕ) : List Char :=
  if n = 0 then ['0'] else ((revDigitsAux n n).reverse).map digitChar

/-- Python `str` of an integer. -/
def intRepr (z : ℤ) : List Char :=
  if z < 0 then '-' :: natRepr z.natAbs else natRepr z.toNat

/-- Zero padding of a formatted number to width `k`, as in the format
specs `:02` and `:03` used by `write_srt`. -/
def padZeros (k : ℕ) (s : List Char) : List Char :=
  List.replicate (k - s.length) '0' ++ s

/-- The timestamp string built by `write_srt` (02_Subtitles.py lines
22-23) for a time `t` in seconds:
`f"{int(t // 3600):02}:{int((t % 3600) // 60):02}:{int(t % 60):02},{int((t * 1000) % 1000):03}"`. -/
def srtTimestamp (t : ℚ) : List Char :=
  padZeros 2 (intRepr (pyInt (pyFloorDiv t 3600))) ++
    ':' :: (padZeros 2 (intRepr (pyInt (pyFloorDiv (pyMod t 3600) 60))) ++
      ':' :: (padZeros 2 (intRepr (pyInt (pyMod t 60))) ++
        ',' :: padZeros 3 (intRepr (pyInt (pyMod (t * 1000) 1000)))))

/-- Python `str.split(sep)` for a one-character separator: split at
every occurrence, keeping empty fields. -/
def splitOnChar (sep : Char) : List Char → List (List Char)
  | [] => [[]]
  | c :: rest =>
      if c = sep then [] :: splitOnChar sep rest
      else
        match splitOnChar sep rest with
        | [] => [[c]]
        | g :: gs => (c :: g) :: gs

/-- The numeric value of a decimal digit character, `none` on any other
character. -/
def charDigit (c : Char) : Option ℕ :=
  if 48 ≤ c.toNat ∧ c.toNat ≤ 57 then some (c.toNat - 48) else none

/-- Accumulating decimal evaluation of a digit string; `none` as soon
as a non-digit appears. -/
def digitsVal : List Char → ℕ → Option ℕ
  | [], acc => some acc
  | c :: rest, acc =>
      match charDigit c with
      | some d => digitsVal rest (10 * acc + d)
      | none => none

/-- Model of Python `int(s)` on the digit strings produced by
`write_srt`: the decimal value of a nonempty all-digit string, `none`
(a `ValueError`) otherwise.  (Real `int` also accepts signs and
surrounding whitespace, which never occur inside an SRT timestamp.) -/
def pyIntOfChars (cs : List Char) : Option ℤ :=
  if cs.isEmpty then none
  else (digitsVal cs 0).map (fun n => (n : ℤ))

/-- Second stage of `AudioSynchronizer.parse_timestamp`
(03_text_to_Speech.py lines 41-45): split the seconds field on `','`
into exactly seconds and milliseconds and combine all four numbers as
`hours * 3600000 + minutes * 60000 + seconds * 1000 + milliseconds`. -/
def parse_sec_fields (h m sec : List Char) : Option ℤ :=
  match splitOnChar ',' sec with
  | [s, ms] => do
      let hv ← pyIntOfChars h
      let mv ← pyIntOfChars m
      let sv ← pyIntOfChars s
      let msv ← pyIntOfChars ms
      pure (hv * 3600000 + mv * 60000 + sv * 1000 + msv)
  | _ => none

/-- `AudioSynchronizer.parse_timestamp` (03_text_to_Speech.py lines
38-45): split on `':'` into exactly hours, minutes and a seconds field,
then delegate to `parse_sec_fields`.  A shape mismatch or a non-numeric
field raises a `ValueError`, modelled as `none`. -/
def parse_timestamp (ts : List Char) : Option ℤ :=
  match splitOnChar ':' ts with
  | [h, m, sec] => parse_sec_fields h m sec
  | _ => none

end Subtitles

section Claims

open CutSilent
open Subtitles

/-- The maximum absolute sample of an all-zero signal is zero. -/
lemma maxAbs_eq_zero_of_all_zero (raw : List ℤ) (h : ∀ x ∈ raw, x = 0) :
    (raw.map Int.natAbs).foldr max 0 = 0 := by
  induction raw with
  | nil => rfl
  | cons a t ih =>
      have ha : a = 0 := h a (List.mem_cons_self a t)
      have ht : ∀ x ∈ t, x = 0 := fun x hx => h x (List.mem_cons_of_mem a hx)
      simp [ha, ih ht]

/-- C1: on a fully silent input (all samples zero) the normalization of
`remove_silence` divides `0.0` by `0.0`, turning every sample into NaN,
and the classification step then marks every sample non-silent (a NaN
comparison is false): the NaN values propagate silently into
classification and no error of any kind is raised. -/
theorem c1_all_zero_nan_propagation (raw : List ℤ) (t : ℚ)
    (h : ∀ x ∈ raw, x = 0) :
    normalizeAudio raw = List.replicate raw.length F.nan ∧
    detect_silence_cpu (normalizeAudio raw) t = List.replicate raw.length false := by
  have hnorm : normalizeAudio raw = List.replicate raw.length F.nan := by
    unfold normalizeAudio
    rw [maxAbs_eq_zero_of_all_zero raw h]
    rw [List.eq_replicate_iff]
    refine ⟨by simp, ?_⟩
    intro b hb
    rcases List.mem_map.mp hb with ⟨x, hx, hbx⟩
    have hx0 : x = 0 := h x hx
    subst hx0
    simp [F.div] at hbx
    exact hbx.symm
  refine ⟨hnorm, ?_⟩
  rw [hnorm]
  unfold detect_silence_cpu
  simp [F.absLt]

/-- Witness for C1 at the concrete all-zero input `[0, 0, 0]` with the
default threshold `0.01`. -/
theorem c1_all_zero_nan_propagation_attest :
    normalizeAudio [0, 0, 0] = List.replicate 3 F.nan ∧
    detect_silence_cpu (normalizeAudio [0, 0, 0]) (1 / 100) =
      List.replicate 3 false := by
  have h := c1_all_zero_nan_propagation [0, 0, 0] (1 / 100) (by decide)
  simpa using h

/-- GPU and CPU classification agree sample for sample. -/
lemma detect_silence_gpu_eq_cpu (audio : List F) (t : ℚ) :
    detect_silence_gpu audio t = detect_silence_cpu audio t := by
  unfold detect_silence_gpu detect_silence_cpu
  apply List.ext_getElem
  · simp
  · intro i h1 h2
    simp only [List.getElem_map, List.getElem_range]
    rw [List.getD_eq_getElem]

/-- C5: the CUDA kernel `detect_silence_gpu` computes exactly the same
boolean per sample as the sequential NumPy path `np.abs(audio) <
threshold`, and consequently the derived keep-interval list is the same
whichever path runs. -/
theorem c5_gpu_cpu_equivalence (audio : List F) (t : ℚ) (w : ℕ) (d : ℚ) :
    detect_silence_gpu audio t = detect_silence_cpu audio t ∧
    keepSegments (detect_silence_gpu audio t) w d =
      keepSegments (detect_silence_cpu audio t) w d := by
  refine ⟨detect_silence_gpu_eq_cpu audio t, ?_⟩
  rw [detect_silence_gpu_eq_cpu audio t]

/-- A run of the segment loop over windows that are all voiced leaves
the state untouched: only silent windows advance `start_time` or close
segments. -/
lemma segLoop_all_voiced (sil : ℕ → Bool) (w : ℕ) :
    ∀ (is : List ℕ) (segs : List (ℚ × ℚ)) (s : ℚ),
      (∀ i ∈ is, sil i = false) →
      segLoop sil w is (segs, s) = (segs, s) := by
  intro is
  induction is with
  | nil => intro segs s _; rfl
  | cons i rest ih =>
      intro segs s h
      have hi : sil i = false := h i (List.mem_cons_self i rest)
      have hrest : ∀ j ∈ rest, sil j = false :=
        fun j hj => h j (List.mem_cons_of_mem i hj)
      simp only [segLoop, hi, Bool.false_eq_true, if_false]
      exact ih segs s hrest

/-- C7: when every full window is voiced (classified non-silent) and the
duration is positive, the derivation returns the single keep-interval
`(0, duration)` spanning the whole source. -/
theorem c7_all_voiced_single_interval (l : List Bool) (w : ℕ) (d : ℚ)
    (hd : 0 < d)
    (hv : ∀ i < num_windows l w, silentWindow l w i = false) :
    keepSegments l w d = [(0, d)] := by
  unfold keepSegments
  rw [segLoop_all_voiced _ _ _ _ _
    (fun i hi => hv i (List.mem_range.mp hi))]
  unfold withTail
  simp [hd]

/-- Witness for C7: a one-window all-voiced classification with
duration 1 keeps the single interval `(0, 1)`. -/
theorem c7_all_voiced_single_interval_attest :
    keepSegments [false] 1 1 = [(0, 1)] := by
  refine c7_all_voiced_single_interval [false] 1 1 (by norm_num) ?_
  intro i hi
  have hi1 : i = 0 := by
    simpa [CutSilent.num_windows] using hi
  subst hi1
  simp [CutSilent.silentWindow, CutSilent.windowMean, CutSilent.windowOf,
    List.countP_cons, List.countP_nil]

/-- C4: after the window scan, whenever the running `start_time` is
strictly below the source duration, the tail interval up to the duration
is appended unconditionally — the classification of the trailing windows
plays no role in this step. -/
theorem c4_tail_interval_appended (l : List Bool) (w : ℕ) (d : ℚ)
    (h : (segLoop (fun i => silentWindow l w i) w
        (List.range (num_windows l w)) ([], 0)).2 < d) :
    keepSegments l w d =
      (segLoop (fun i => silentWindow l w i) w
        (List.range (num_windows l w)) ([], 0)).1 ++
      [((segLoop (fun i => silentWindow l w i) w
        (List.range (num_windows l w)) ([], 0)).2, d)] := by
  unfold keepSegments withTail
  rw [if_pos h]

/-- Witness for C4: two all-silent windows of one sample each; the scan
closes at `2/44100` and the tail `(2/44100, 1)` is still appended. -/
theorem c4_tail_interval_appended_attest :
    keepSegments [true, true] 1 1 = [((1 : ℚ) / 22050, 1)] := by
  have hsil : ∀ i, silentWindow [true, true] 1 i = silentWindow [true, true] 1 i := fun _ => rfl
  have hs0 : silentWindow [true, true] 1 0 = true := by
    simp [CutSilent.silentWindow, CutSilent.windowMean, CutSilent.windowOf,
      List.countP_cons, List.countP_nil]
    norm_num
  have hs1 : silentWindow [true, true] 1 1 = true := by
    simp [CutSilent.silentWindow, CutSilent.windowMean, CutSilent.windowOf,
      List.countP_cons, List.countP_nil]
    norm_num
  have hrange : List.range (num_windows [true, true] 1) = [0, 1] := by
    simp [CutSilent.num_windows]
    decide
  have hseg : segLoop (fun i => silentWindow [true, true] 1 i) 1
      (List.range (num_windows [true, true] 1)) ([], 0) = ([], (1 : ℚ) / 22050) := by
    rw [hrange]
    simp only [segLoop, hs0, hs1, if_true]
    norm_num
  have h := c4_tail_interval_appended [true, true] 1 1 (by rw [hseg]; norm_num)
  rw [h, hseg]
  rfl

/-- A full window (index below `num_windows`) has exactly `w` samples. -/
lemma windowOf_length (l : List Bool) (w i : ℕ) (hi : i < num_windows l w) :
    (windowOf l w i).length = w := by
  have hw : 0 < w := by
    by_contra hw0
    have : w = 0 := by omega
    subst this
    simp [CutSilent.num_windows] at hi
  have hle : (i + 1) * w ≤ l.length := by
    have h1 : i + 1 ≤ l.length / w := hi
    calc (i + 1) * w ≤ l.length / w * w := Nat.mul_le_mul_right w h1
      _ ≤ l.length := Nat.div_mul_le_self _ _
  unfold windowOf
  rw [List.length_take, List.length_drop]
  rw [Nat.succ_mul] at hle
  omega

/-- Every full window of an all-`true` classification list is silent. -/
lemma silentWindow_of_all_true (l : List Bool) (w i : ℕ)
    (hl : ∀ b ∈ l, b = true) (hi : i < num_windows l w) :
    silentWindow l w i = true := by
  have hw : 0 < w := by
    by_contra hw0
    have : w = 0 := by omega
    subst this
    simp [CutSilent.num_windows] at hi
  have hlen : (windowOf l w i).length = w := windowOf_length l w i hi
  have hcount : (windowOf l w i).countP id = (windowOf l w i).length := by
    rw [List.countP_eq_length]
    intro a ha
    have : a ∈ l := by
      have := List.mem_of_mem_take ha
      exact List.mem_of_mem_drop this
    simp [hl a this]
  have hmean : windowMean l w i = 1 := by
    unfold windowMean
    rw [hcount, hlen]
    rw [div_self]
    exact_mod_cast hw.ne.symm
  unfold silentWindow
  rw [hmean]
  norm_num

/-- Running the segment loop over consecutive all-silent window indices
`a, a+1, …, a+b-1` starting at `start_time = a*w/44100` closes no
segment (each window end coincides with the running `start_time`) and
leaves `start_time = (a+b)*w/44100`. -/
lemma segLoop_all_silent (sil : ℕ → Bool) (w : ℕ) :
    ∀ (b a : ℕ) (segs : List (ℚ × ℚ)),
      (∀ i, a ≤ i → i < a + b → sil i = true) →
      segLoop sil w (List.range' a b) (segs, ((a * w : ℕ) : ℚ) / 44100) =
        (segs, (((a + b) * w : ℕ) : ℚ) / 44100) := by
  intro b
  induction b with
  | zero => intro a segs _; simp [segLoop]
  | succ b ih =>
      intro a segs h
      rw [List.range'_succ]
      have ha : sil a = true := h a le_rfl (by omega)
      simp only [segLoop, ha, if_true, lt_irrefl, if_false, ite_self]
      have := ih (a + 1) segs (fun i h1 h2 => h i (by omega) (by omega))
      rw [this]
      have harith : a + 1 + b = a + (b + 1) := by omega
      rw [harith]

/-- C2 (amended): when every full window is classified silent, the
window scan itself produces no interval; the final keep-interval list is
the single tail interval `(num_windows*window_size/44100, duration)`
when that point lies strictly before the duration — and then an output
file IS written — and is empty (with no output written) only otherwise. -/
theorem c2_all_silent_keepSegments (l : List Bool) (w : ℕ) (d : ℚ)
    (hsil : ∀ i < num_windows l w, silentWindow l w i = true) :
    keepSegments l w d =
      (if ((num_windows l w * w : ℕ) : ℚ) / 44100 < d then
        [(((num_windows l w * w : ℕ) : ℚ) / 44100, d)]
      else []) ∧
    (outputWritten l w d = true ↔ ((num_windows l w * w : ℕ) : ℚ) / 44100 < d) := by
  have hloop : segLoop (fun i => silentWindow l w i) w
      (List.range (num_windows l w)) ([], 0) =
      ([], ((num_windows l w * w : ℕ) : ℚ) / 44100) := by
    rw [List.range_eq_range']
    have h0 : ((0 : ℚ)) = ((0 * w : ℕ) : ℚ) / 44100 := by norm_num
    rw [show (([], (0 : ℚ)) : List (ℚ × ℚ) × ℚ) = ([], ((0 * w : ℕ) : ℚ) / 44100) by
      rw [← h0]]
    rw [segLoop_all_silent (fun i => silentWindow l w i) w (num_windows l w) 0 []
      (fun i h1 h2 => hsil i (by omega))]
    norm_num
  have hks : keepSegments l w d =
      (if ((num_windows l w * w : ℕ) : ℚ) / 44100 < d then
        [(((num_windows l w * w : ℕ) : ℚ) / 44100, d)]
      else []) := by
    unfold keepSegments withTail
    rw [hloop]
    by_cases hd : ((num_windows l w * w : ℕ) : ℚ) / 44100 < d
    · rw [if_pos hd, if_pos hd]
      rfl
    · rw [if_neg hd, if_neg hd]
  refine ⟨hks, ?_⟩
  unfold outputWritten
  rw [hks]
  by_cases hd : ((num_windows l w * w : ℕ) : ℚ) / 44100 < d
  · simp [hd]
  · simp [hd]

/-- Counterexample to C2 as stated: a one-sample input whose single
full window is silent, with duration `1`.  The keep-interval list is
the nonempty `[(1/44100, 1)]` (the unconditional tail interval) and an
output file is written. -/
theorem c2_counterexample :
    silentWindow [true] 1 0 = true ∧
    num_windows [true] 1 = 1 ∧
    keepSegments [true] 1 1 = [((1 : ℚ) / 44100, 1)] ∧
    outputWritten [true] 1 1 = true := by
  have hs0 : silentWindow [true] 1 0 = true := by
    simp [CutSilent.silentWindow, CutSilent.windowMean, CutSilent.windowOf,
      List.countP_cons, List.countP_nil]
    norm_num
  have hrange : List.range (num_windows [true] 1) = [0] := by
    simp [CutSilent.num_windows]
    decide
  have hseg : segLoop (fun i => silentWindow [true] 1 i) 1
      (List.range (num_windows [true] 1)) ([], 0) = ([], (1 : ℚ) / 44100) := by
    rw [hrange]
    simp only [segLoop, hs0, if_true]
    norm_num
  have hks : keepSegments [true] 1 1 = [((1 : ℚ) / 44100, 1)] := by
    unfold keepSegments withTail
    rw [hseg]
    rw [if_pos (by norm_num : (1 : ℚ) / 44100 < 1)]
    rfl
  refine ⟨hs0, by simp [CutSilent.num_windows], hks, ?_⟩
  unfold outputWritten
  rw [hks]
  rfl

/-- Witness for the amended C2: two all-silent one-sample windows with
duration `2`; the scan closes nothing and the tail interval
`(2/44100, 2)` alone is kept, so an output file is written. -/
theorem c2_all_silent_keepSegments_attest :
    keepSegments [true, true] 1 2 = [((1 : ℚ) / 22050, 2)] ∧
    outputWritten [true, true] 1 2 = true := by
  have hnw : num_windows [true, true] 1 = 2 := by
    simp [CutSilent.num_windows]
  have h := c2_all_silent_keepSegments [true, true] 1 2
    (fun i hi => silentWindow_of_all_true [true, true] 1 i (by decide) hi)
  rw [hnw] at h
  have hcond : ((2 * 1 : ℕ) : ℚ) / 44100 < 2 := by norm_num
  rw [if_pos hcond] at h
  refine ⟨?_, ?_⟩
  · rw [h.1]
    norm_num
  · rw [h.2]
    norm_num

/-- Window end times are monotone in the window index. -/
lemma windowTime_mono (w : ℕ) {i j : ℕ} (h : i ≤ j) :
    ((i * w : ℕ) : ℚ) / 44100 ≤ ((j * w : ℕ) : ℚ) / 44100 := by
  apply div_le_div_of_nonneg_right _ (by norm_num)
  exact_mod_cast Nat.mul_le_mul_right w h

/-- Invariant of the segment-collection loop: processing strictly
increasing window indices whose end times all lie at or after the
current `start_time` preserves (and extends) the facts that every
collected segment is nonempty (`start < end`), ends no later than the
running `start_time`, and that consecutive segments are ordered
(`end ≤ next start`); the running `start_time` never decreases. -/
lemma segLoop_invariant (sil : ℕ → Bool) (w : ℕ) :
    ∀ (is : List ℕ) (segs : List (ℚ × ℚ)) (s : ℚ),
      (∀ p ∈ segs, p.1 < p.2) →
      (∀ p ∈ segs, p.2 ≤ s) →
      List.Chain' (fun a b => a.2 ≤ b.1) segs →
      List.Pairwise (· < ·) is →
      (∀ j ∈ is, s ≤ ((j * w : ℕ) : ℚ) / 44100) →
      (∀ p ∈ (segLoop sil w is (segs, s)).1, p.1 < p.2) ∧
      (∀ p ∈ (segLoop sil w is (segs, s)).1, p.2 ≤ (segLoop sil w is (segs, s)).2) ∧
      List.Chain' (fun a b => a.2 ≤ b.1) (segLoop sil w is (segs, s)).1 ∧
      s ≤ (segLoop sil w is (segs, s)).2 := by
  intro is
  induction is with
  | nil =>
      intro segs s h1 h2 h3 _ _
      exact ⟨h1, h2, h3, le_refl s⟩
  | cons i rest ih =>
      intro segs s h1 h2 h3 hpw hbd
      have hpw' : List.Pairwise (· < ·) rest := (List.pairwise_cons.mp hpw).2
      have hlt_rest : ∀ j ∈ rest, i < j := (List.pairwise_cons.mp hpw).1
      by_cases hsi : sil i = true
      · have hse : s ≤ ((i * w : ℕ) : ℚ) / 44100 :=
          hbd i (List.mem_cons_self i rest)
        have hes' : ((i * w : ℕ) : ℚ) / 44100 ≤ (((i + 1) * w : ℕ) : ℚ) / 44100 :=
          windowTime_mono w (by omega)
        have hss' : s ≤ (((i + 1) * w : ℕ) : ℚ) / 44100 := le_trans hse hes'
        have hfut : ∀ j ∈ rest, (((i + 1) * w : ℕ) : ℚ) / 44100 ≤
            ((j * w : ℕ) : ℚ) / 44100 :=
          fun j hj => windowTime_mono w (by have := hlt_rest j hj; omega)
        simp only [segLoop, hsi, if_true]
        by_cases hlt : s < ((i * w : ℕ) : ℚ) / 44100
        · rw [if_pos hlt]
          have r := ih (segs ++ [(s, ((i * w : ℕ) : ℚ) / 44100)])
            ((((i + 1) * w : ℕ) : ℚ) / 44100) ?_ ?_ ?_ hpw' hfut
          · exact ⟨r.1, r.2.1, r.2.2.1, le_trans hss' r.2.2.2⟩
          · intro p hp
            rcases List.mem_append.mp hp with hp | hp
            · exact h1 p hp
            · rw [List.mem_singleton] at hp
              subst hp
              exact hlt
          · intro p hp
            rcases List.mem_append.mp hp with hp | hp
            · exact le_trans (h2 p hp) hss'
            · rw [List.mem_singleton] at hp
              subst hp
              exact hes'
          · apply List.Chain'.append h3 (List.chain'_singleton _)
            intro x hx y hy
            simp at hy
            subst hy
            rcases List.mem_getLast?_eq_getLast hx with ⟨hne, hxl⟩
            exact le_trans (h2 x (hxl ▸ List.getLast_mem hne)) (le_refl s)
        · rw [if_neg hlt]
          have r := ih segs ((((i + 1) * w : ℕ) : ℚ) / 44100)
            h1 (fun p hp => le_trans (h2 p hp) hss') h3 hpw' hfut
          exact ⟨r.1, r.2.1, r.2.2.1, le_trans hss' r.2.2.2⟩
      · have hsi' : sil i = false := by
          cases h : sil i
          · rfl
          · exact absurd h hsi
        simp only [segLoop, hsi', Bool.false_eq_true, if_false]
        exact ih segs s h1 h2 h3 hpw'
          (fun j hj => hbd j (List.mem_cons_of_mem i hj))

/-- Every keep-interval produced by the derivation is nonempty and the
intervals are adjacent-ordered (`end ≤ next start`). -/
lemma keepSegments_props (l : List Bool) (w : ℕ) (d : ℚ) :
    (∀ p ∈ keepSegments l w d, p.1 < p.2) ∧
    List.Chain' (fun a b : ℚ × ℚ => a.2 ≤ b.1) (keepSegments l w d) := by
  have inv := segLoop_invariant (fun i => silentWindow l w i) w
    (List.range (num_windows l w)) [] 0
    (by intro p hp; simp at hp)
    (by intro p hp; simp at hp)
    List.chain'_nil
    (List.pairwise_lt_range _)
    (by
      intro j _
      positivity)
  obtain ⟨i1, i2, i3, _⟩ := inv
  unfold keepSegments withTail
  set r := segLoop (fun i => silentWindow l w i) w
    (List.range (num_windows l w)) ([], 0) with hr
  by_cases hd : r.2 < d
  · rw [if_pos hd]
    constructor
    · intro p hp
      rcases List.mem_append.mp hp with hp | hp
      · exact i1 p hp
      · rw [List.mem_singleton] at hp
        subst hp
        exact hd
    · apply List.Chain'.append i3 (List.chain'_singleton _)
      intro x hx y hy
      simp at hy
      subst hy
      rcases List.mem_getLast?_eq_getLast hx with ⟨hne, hxl⟩
      exact i2 x (hxl ▸ List.getLast_mem hne)
  · rw [if_neg hd]
    exact ⟨i1, i3⟩

/-- Nonempty adjacent-ordered intervals have strictly increasing start
times. -/
lemma chain_fst_lt_of_snd_le (ks : List (ℚ × ℚ))
    (h1 : ∀ p ∈ ks, p.1 < p.2)
    (h2 : List.Chain' (fun a b : ℚ × ℚ => a.2 ≤ b.1) ks) :
    List.Chain' (fun a b : ℚ × ℚ => a.1 < b.1) ks := by
  induction ks with
  | nil => exact List.chain'_nil
  | cons a t ih =>
      cases t with
      | nil => exact List.chain'_singleton a
      | cons b t' =>
          rw [List.chain'_cons] at h2 ⊢
          refine ⟨?_, ih (fun p hp => h1 p (List.mem_cons_of_mem a hp)) h2.2⟩
          exact lt_of_lt_of_le (h1 a (List.mem_cons_self a _)) h2.1

/-- C6: the derived keep-interval list is ordered and non-overlapping:
start times are strictly increasing from one interval to the next, and
each interval ends no later than the next one starts. -/
theorem c6_keepSegments_ordered_nonoverlapping (l : List Bool) (w : ℕ) (d : ℚ) :
    List.Chain' (fun a b : ℚ × ℚ => a.1 < b.1) (keepSegments l w d) ∧
    List.Chain' (fun a b : ℚ × ℚ => a.2 ≤ b.1) (keepSegments l w d) := by
  obtain ⟨h1, h2⟩ := keepSegments_props l w d
  exact ⟨chain_fst_lt_of_snd_le _ h1 h2, h2⟩

/-- A rational with denominator 1 has itself as floor. -/
lemma floor_eq_self_of_den_one (q : ℚ) (h : q.den = 1) : ((⌊q⌋ : ℚ)) = q := by
  have hq : ((q.num : ℚ)) = q := (Rat.den_eq_one_iff q).mp h
  rw [← hq, Int.floor_intCast]

/-- When `44100 * min_silence_duration` is a positive whole number, the
computed `window_size` equals it exactly. -/
lemma window_size_eq (msd : ℚ) (hpos : 0 < msd)
    (hden : ((44100 : ℚ) * msd).den = 1) :
    ((window_size msd : ℕ) : ℚ) = 44100 * msd := by
  have hq : (0 : ℚ) < 44100 * msd := by positivity
  have hfl : ((⌊(44100 : ℚ) * msd⌋ : ℚ)) = 44100 * msd :=
    floor_eq_self_of_den_one _ hden
  have hnn : (0 : ℤ) ≤ ⌊(44100 : ℚ) * msd⌋ := by
    apply Int.floor_nonneg.mpr
    exact le_of_lt hq
  unfold window_size
  rw [show ((⌊(44100 : ℚ) * msd⌋.toNat : ℕ) : ℚ) = ((⌊(44100 : ℚ) * msd⌋ : ℤ) : ℚ) by
    exact_mod_cast congrArg (fun z : ℤ => (z : ℚ)) (Int.toNat_of_nonneg hnn)]
  exact hfl

/-- Concatenating the first `k` windows reproduces the first `k * w`
samples: the windows tile the list without gap or overlap. -/
lemma join_windows (l : List Bool) (w : ℕ) :
    ∀ k, (((List.range k).map (fun i => windowOf l w i)).flatten) = l.take (k * w) := by
  intro k
  induction k with
  | zero => simp
  | succ k ih =>
      rw [List.range_succ, List.map_append, List.flatten_append, ih]
      simp only [List.map_cons, List.map_nil, List.flatten_cons, List.flatten_nil,
        List.append_nil]
      unfold windowOf
      rw [← List.take_add]
      congr 1
      ring

/-- C3: classification cuts the normalized samples into consecutive
windows of exactly `44100 * min_silence_duration` samples (when that
product is a whole number of samples), analyses only the
`len / window_size` full windows — the final partial window is dropped —
and flags window `i` silent exactly when the fraction of its samples
whose absolute amplitude is below the threshold is at least `0.8`. -/
theorem c3_windowed_classification (xs : List F) (t msd : ℚ)
    (hpos : 0 < msd) (hden : ((44100 : ℚ) * msd).den = 1) :
    ((window_size msd : ℕ) : ℚ) = 44100 * msd ∧
    (∀ i < num_windows (detect_silence_cpu xs t) (window_size msd),
      (windowOf (detect_silence_cpu xs t) (window_size msd) i).length = window_size msd) ∧
    (((List.range (num_windows (detect_silence_cpu xs t) (window_size msd))).map
        (fun i => windowOf (detect_silence_cpu xs t) (window_size msd) i)).flatten =
      (detect_silence_cpu xs t).take
        (num_windows (detect_silence_cpu xs t) (window_size msd) * window_size msd)) ∧
    ((detect_silence_cpu xs t).drop
        (num_windows (detect_silence_cpu xs t) (window_size msd) * window_size msd)).length
      < window_size msd ∧
    (∀ i < num_windows (detect_silence_cpu xs t) (window_size msd),
      (silentWindow (detect_silence_cpu xs t) (window_size msd) i = true ↔
        (8 : ℚ) / 10 ≤
          (((xs.drop (i * window_size msd)).take (window_size msd)).countP
              (fun x => x.absLt t) : ℚ) / ((window_size msd : ℕ) : ℚ))) := by
  set l := detect_silence_cpu xs t with hl
  set w := window_size msd with hw
  have hwq : ((w : ℕ) : ℚ) = 44100 * msd := window_size_eq msd hpos hden
  have hw0 : 0 < w := by
    by_contra h0
    have : w = 0 := by omega
    rw [this] at hwq
    have : (0 : ℚ) < 44100 * msd := by positivity
    rw [← hwq] at this
    simp at this
  refine ⟨hwq, ?_, ?_, ?_, ?_⟩
  · intro i hi
    exact windowOf_length l w i hi
  · exact join_windows l w _
  · rw [List.length_drop]
    have key := Nat.div_add_mod' l.length w
    have hmod := Nat.mod_lt l.length hw0
    unfold num_windows
    generalize l.length / w * w = A at key
    omega
  · intro i hi
    have hlen : (windowOf l w i).length = w := windowOf_length l w i hi
    have hcnt : (windowOf l w i).countP id =
        ((xs.drop (i * w)).take w).countP (fun x => x.absLt t) := by
      rw [hl]
      unfold windowOf detect_silence_cpu
      rw [← List.map_drop, ← List.map_take, List.countP_map]
      rfl
    unfold silentWindow
    rw [Bool.not_eq_eq_eq_not]
    simp only [Bool.not_true, decide_eq_false_iff_not, not_lt]
    unfold windowMean
    rw [hlen, hcnt]

/-- Witness for C3 at a two-sample all-zero input, threshold `0.01` and
`min_silence_duration = 1/22050` (one two-sample window). -/
theorem c3_windowed_classification_attest :
    ((window_size (1 / 22050) : ℕ) : ℚ) = 44100 * (1 / 22050) ∧
    (windowOf (detect_silence_cpu [F.val 0, F.val 0] (1 / 100))
        (window_size (1 / 22050)) 0).length = window_size (1 / 22050) ∧
    (silentWindow (detect_silence_cpu [F.val 0, F.val 0] (1 / 100))
        (window_size (1 / 22050)) 0 = true ↔
      (8 : ℚ) / 10 ≤
        ((([F.val 0, F.val 0].drop (0 * window_size (1 / 22050))).take
            (window_size (1 / 22050))).countP
            (fun x => x.absLt (1 / 100)) : ℚ) /
          ((window_size (1 / 22050) : ℕ) : ℚ)) := by
  have hden : ((44100 : ℚ) * (1 / 22050)).den = 1 := by
    rw [show ((44100 : ℚ) * (1 / 22050)) = 2 by norm_num]
    exact Rat.den_ofNat 2
  have h := c3_windowed_classification [F.val 0, F.val 0] (1 / 100) (1 / 22050)
    (by norm_num) hden
  have hwq := h.1
  rw [show ((44100 : ℚ) * (1 / 22050)) = 2 by norm_num] at hwq
  have hw2 : window_size (1 / 22050) = 2 := by exact_mod_cast hwq
  have hb : 0 < num_windows (detect_silence_cpu [F.val 0, F.val 0] (1 / 100))
      (window_size (1 / 22050)) := by
    rw [hw2]
    simp [CutSilent.num_windows, CutSilent.detect_silence_cpu]
  exact ⟨h.1, h.2.1 0 hb, h.2.2.2.2 0 hb⟩

/-- Taking window `[k, k+w)` of `g` mapped over `range N` is `g` mapped
over `range' k w`, provided the window fits. -/
lemma window_map_range (g : ℕ → Bool) (N k w : ℕ) (h : k + w ≤ N) :
    (((List.range N).map g).drop k).take w = (List.range' k w).map g := by
  have h1 : List.range' 0 k ++ List.range' k (N - k) = List.range' 0 N := by
    have ha := List.range'_append 0 k (N - k) 1
    simp only [one_mul, zero_add] at ha
    rw [ha]
    congr 1
    omega
  have hdrop : ((List.range N).map g).drop k = (List.range' k (N - k)).map g := by
    rw [List.range_eq_range', ← h1, List.map_append]
    exact List.drop_left' (by simp)
  have h2 : List.range' k w ++ List.range' (k + w) (N - k - w) = List.range' k (N - k) := by
    have ha := List.range'_append k w (N - k - w) 1
    simp only [one_mul] at ha
    rw [ha]
    congr 1
    omega
  rw [hdrop, ← h2, List.map_append]
  exact List.take_left' (by simp)

/-- A window without a single silent sample is classified voiced. -/
lemma silentWindow_false_of_countP_zero (l : List Bool) (w i : ℕ)
    (hc : (windowOf l w i).countP id = 0) : silentWindow l w i = false := by
  unfold silentWindow windowMean
  rw [hc]
  norm_num

/-- A full window all of whose samples are silent is classified silent. -/
lemma silentWindow_true_of_countP_full (l : List Bool) (w i : ℕ) (hw : 0 < w)
    (hlen : (windowOf l w i).length = w)
    (hc : (windowOf l w i).countP id = w) : silentWindow l w i = true := by
  unfold silentWindow windowMean
  rw [hc, hlen, div_self (by positivity : ((w : ℕ) : ℚ) ≠ 0)]
  norm_num

/-- The segment loop processes a concatenation of index lists in two
stages. -/
lemma segLoop_append (sil : ℕ → Bool) (w : ℕ) :
    ∀ (is1 is2 : List ℕ) (st : List (ℚ × ℚ) × ℚ),
      segLoop sil w (is1 ++ is2) st = segLoop sil w is2 (segLoop sil w is1 st) := by
  intro is1
  induction is1 with
  | nil => intro is2 st; rfl
  | cons i rest ih =>
      intro is2 st
      obtain ⟨segs, s⟩ := st
      by_cases hsi : sil i = true
      · simp only [List.cons_append, segLoop, hsi, if_true]
        exact ih is2 _
      · have hsi' : sil i = false := by
          cases h : sil i
          · rfl
          · exact absurd h hsi
        simp only [List.cons_append, segLoop, hsi', Bool.false_eq_true, if_false]
        exact ih is2 _

/-- `num_windows` unfolded, stated symbolically so concrete instances
never force kernel evaluation of a large list. -/
lemma num_windows_eq (l : List Bool) (w : ℕ) : num_windows l w = l.length / w := rfl

/-- The classification of the test waveform equals the region indicator. -/
lemma lC8_eq : lC8 = (List.range 441000).map predC8 := by
  unfold lC8 detect_silence_cpu xsC8
  rw [List.map_map]
  congr 1
  funext n
  by_cases h : 3 * 44100 ≤ n ∧ n < 5 * 44100
  · simp [sampleC8, predC8, h, F.absLt]
  · simp [sampleC8, predC8, h, F.absLt]
    have habs : |(2 : ℚ)⁻¹| = 2⁻¹ := abs_of_nonneg (by norm_num)
    rw [habs]
    norm_num

/-- Windows of the test classification are the region indicator over the
matching index range. -/
lemma lC8_window (i : ℕ) (hi : i < 10) :
    windowOf lC8 44100 i = (List.range' (i * 44100) 44100).map predC8 := by
  unfold windowOf
  rw [lC8_eq]
  exact window_map_range predC8 441000 (i * 44100) 44100 (by omega)

/-- Windows 0,1,2 and 5..9 of the test waveform contain no silent
sample. -/
lemma lC8_count_zero (i : ℕ) (hi : i < 10) (hreg : i < 3 ∨ 5 ≤ i) :
    (windowOf lC8 44100 i).countP id = 0 := by
  rw [lC8_window i hi, List.countP_map, List.countP_eq_zero]
  intro n hn
  rw [List.mem_range'_1] at hn
  simp [predC8]
  omega

/-- Windows 3 and 4 of the test waveform are entirely silent. -/
lemma lC8_count_full (i : ℕ) (hi3 : 3 ≤ i) (hi5 : i < 5) :
    (windowOf lC8 44100 i).countP id = 44100 := by
  rw [lC8_window i (by omega), List.countP_map]
  have hfull : List.countP (id ∘ predC8) (List.range' (i * 44100) 44100) =
      (List.range' (i * 44100) 44100).length := by
    rw [List.countP_eq_length]
    intro n hn
    rw [List.mem_range'_1] at hn
    simp [predC8]
    omega
  rw [hfull, List.length_range']

/-- C8: on the 10-second 44100 Hz waveform that is below threshold
exactly during seconds `[3, 5)` (threshold `0.01`,
`min_silence_duration` 1 s), `remove_silence` derives exactly the
keep-intervals `[(0, 3), (5, 10)]`. -/
theorem c8_end_to_end_scenario :
    remove_silence_segments xsC8 (1 / 100) 1 10 = [(0, 3), (5, 10)] := by
  have hw : window_size 1 = 44100 := by
    unfold window_size
    rw [show ((44100 : ℚ) * 1) = ((44100 : ℕ) : ℚ) by norm_num]
    rw [Int.floor_natCast, Int.toNat_natCast]
  have hlen : lC8.length = 441000 := by
    rw [lC8_eq, List.length_map, List.length_range]
  have hnw : num_windows lC8 44100 = 10 := by
    have h := hlen
    have e := num_windows_eq lC8 44100
    omega
  have hwin_len : ∀ i, i < 10 → (windowOf lC8 44100 i).length = 44100 := by
    intro i hi
    apply windowOf_length
    rw [hnw]
    exact hi
  have hsil_t : ∀ i, 3 ≤ i → i < 5 → silentWindow lC8 44100 i = true := by
    intro i h3 h5
    exact silentWindow_true_of_countP_full lC8 44100 i (by norm_num)
      (hwin_len i (by omega)) (lC8_count_full i h3 h5)
  have hsil_f : ∀ i, i < 10 → (i < 3 ∨ 5 ≤ i) → silentWindow lC8 44100 i = false :=
    fun i hi hr => silentWindow_false_of_countP_zero lC8 44100 i (lC8_count_zero i hi hr)
  have hr10 : List.range (num_windows lC8 44100) =
      (List.range' 0 3 ++ [3]) ++ ([4] ++ List.range' 5 5) := by
    rw [hnw]
    decide
  have hks : keepSegments lC8 44100 10 = [(0, 3), (5, 10)] := by
    unfold keepSegments
    rw [hr10, segLoop_append, segLoop_append, segLoop_append]
    have hstep1 : segLoop (fun i => silentWindow lC8 44100 i) 44100
        (List.range' 0 3) ([], 0) = ([], 0) := by
      apply segLoop_all_voiced
      intro i hi
      rw [List.mem_range'_1] at hi
      exact hsil_f i (by omega) (by omega)
    rw [hstep1]
    have e3 : ℚ := ((3 * 44100 : ℕ) : ℚ) / 44100
    have hstep2 : segLoop (fun i => silentWindow lC8 44100 i) 44100 [3] ([], 0) =
        ([(0, ((3 * 44100 : ℕ) : ℚ) / 44100)], ((4 * 44100 : ℕ) : ℚ) / 44100) := by
      simp only [segLoop, hsil_t 3 (by omega) (by omega), if_true]
      rw [if_pos (by push_cast; norm_num : (0 : ℚ) < ((3 * 44100 : ℕ) : ℚ) / 44100)]
      norm_num
    rw [hstep2]
    have hstep3 : segLoop (fun i => silentWindow lC8 44100 i) 44100 [4]
        ([(0, ((3 * 44100 : ℕ) : ℚ) / 44100)], ((4 * 44100 : ℕ) : ℚ) / 44100) =
        ([(0, ((3 * 44100 : ℕ) : ℚ) / 44100)], ((5 * 44100 : ℕ) : ℚ) / 44100) := by
      simp only [segLoop, hsil_t 4 (by omega) (by omega), if_true]
      rw [if_neg (lt_irrefl _)]
    rw [hstep3]
    have hstep4 : segLoop (fun i => silentWindow lC8 44100 i) 44100 (List.range' 5 5)
        ([(0, ((3 * 44100 : ℕ) : ℚ) / 44100)], ((5 * 44100 : ℕ) : ℚ) / 44100) =
        ([(0, ((3 * 44100 : ℕ) : ℚ) / 44100)], ((5 * 44100 : ℕ) : ℚ) / 44100) := by
      apply segLoop_all_voiced
      intro i hi
      rw [List.mem_range'_1] at hi
      exact hsil_f i (by omega) (by omega)
    rw [hstep4]
    unfold withTail
    rw [if_pos (by push_cast; norm_num : (((5 * 44100 : ℕ) : ℚ) / 44100) < 10)]
    have h3 : ((3 * 44100 : ℕ) : ℚ) / 44100 = 3 := by push_cast; norm_num
    have h5 : ((5 * 44100 : ℕ) : ℚ) / 44100 = 5 := by push_cast; norm_num
    rw [h3, h5]
    rfl
  unfold remove_silence_segments
  rw [hw]
  exact hks

/-- Dropping through a dot-free prefix, `stripExtRev` cuts exactly at
the next `'.'`. -/
lemma stripExtRev_no_dot (xs : List Char) (r : List Char) (h : ('.' : Char) ∉ xs) :
    stripExtRev (xs ++ '.' :: r) = some r := by
  induction xs with
  | nil => simp [stripExtRev]
  | cons c t ih =>
      have hc : c ≠ '.' := fun hce => h (hce ▸ List.mem_cons_self c t)
      have ht : ('.' : Char) ∉ t := fun hm => h (List.mem_cons_of_mem c hm)
      simp only [List.cons_append, stripExtRev, if_neg hc]
      exact ih ht

/-- C9 (amended): for an input path `<stem>.<ext>` (dot-free extension),
the output path is `<stem>_no_silence.mp4` — the stem is preserved but
the extension is always the hard-coded `.mp4`, not the input's. -/
theorem c9_output_path (stem ext : List Char) (hext : ('.' : Char) ∉ ext) :
    output_path (stem ++ '.' :: ext) = stem ++ "_no_silence.mp4".data := by
  unfold output_path pyStem
  have hrev : (stem ++ '.' :: ext).reverse = ext.reverse ++ '.' :: stem.reverse := by
    rw [List.reverse_append, List.reverse_cons, List.append_assoc]
    rfl
  rw [hrev, stripExtRev_no_dot ext.reverse stem.reverse
    (fun hm => hext (List.mem_reverse.mp hm))]
  show stem.reverse.reverse ++ "_no_silence.mp4".data = stem ++ "_no_silence.mp4".data
  rw [List.reverse_reverse]

/-- Counterexample to C9 as stated: for the input `video.mkv` the code
produces `video_no_silence.mp4`, not the claimed sibling with the
original extension `video_no_silence.mkv`. -/
theorem c9_counterexample :
    output_path ("video.mkv".data) = "video_no_silence.mp4".data ∧
    output_path ("video.mkv".data) ≠ "video_no_silence.mkv".data := by
  constructor
  · decide
  · decide

/-- Witness for the amended C9 at the concrete path `a.mkv`. -/
theorem c9_output_path_attest :
    output_path ("a.mkv".data) = "a_no_silence.mp4".data := by
  have h := c9_output_path ("a".data) ("mkv".data) (by decide)
  rw [show ("a.mkv".data) = ("a".data ++ '.' :: "mkv".data) by decide] at *
  rw [h]
  decide

/-- `digitChar` produces the matching decimal digit character. -/
lemma charDigit_digitChar (d : ℕ) (hd : d < 10) :
    charDigit (digitChar d) = some d := by
  interval_cases d <;> decide

/-- `digitChar` characters have code points `48 + d`. -/
lemma digitChar_isDigit (d : ℕ) (hd : d < 10) :
    48 ≤ (digitChar d).toNat ∧ (digitChar d).toNat ≤ 57 := by
  interval_cases d <;> decide

/-- `revDigitsAux` computes the little-endian decimal digits: folding
them back recovers the number, and every digit is below 10. -/
lemma revDigitsAux_spec :
    ∀ (fuel n : ℕ), n ≤ fuel →
      (revDigitsAux fuel n).foldr (fun d a => 10 * a + d) 0 = n ∧
      ∀ d ∈ revDigitsAux fuel n, d < 10 := by
  intro fuel
  induction fuel with
  | zero =>
      intro n hn
      have : n = 0 := by omega
      subst this
      exact ⟨rfl, by intro d hd; simp [revDigitsAux] at hd⟩
  | succ f ih =>
      intro n hn
      cases n with
      | zero => exact ⟨rfl, by intro d hd; simp [revDigitsAux] at hd⟩
      | succ m =>
          have hdiv : (m + 1) / 10 ≤ f := by
            have h1 : (m + 1) / 10 < m + 1 := Nat.div_lt_self (by omega) (by omega)
            omega
          obtain ⟨hval, hdig⟩ := ih ((m + 1) / 10) hdiv
          constructor
          · simp only [revDigitsAux, List.foldr_cons, hval]
            have := Nat.div_add_mod (m + 1) 10
            omega
          · intro d hd
            simp only [revDigitsAux, List.mem_cons] at hd
            rcases hd with hd | hd
            · subst hd
              exact Nat.mod_lt _ (by omega)
            · exact hdig d hd

/-- Evaluating mapped digit characters accumulates their decimal
value. -/
lemma digitsVal_map_digitChar (L : List ℕ) (hL : ∀ d ∈ L, d < 10) :
    ∀ acc, digitsVal (L.map digitChar) acc =
      some (L.foldl (fun a d => 10 * a + d) acc) := by
  induction L with
  | nil => intro acc; rfl
  | cons d t ih =>
      intro acc
      have hd : d < 10 := hL d (List.mem_cons_self d t)
      have ht : ∀ x ∈ t, x < 10 := fun x hx => hL x (List.mem_cons_of_mem d hx)
      simp only [List.map_cons, digitsVal, charDigit_digitChar d hd]
      exact ih ht (10 * acc + d)

/-- Leading zeros do not change the parsed value (zero accumulator). -/
lemma digitsVal_replicate_zero (k : ℕ) (cs : List Char) :
    digitsVal (List.replicate k '0' ++ cs) 0 = digitsVal cs 0 := by
  induction k with
  | zero => rfl
  | succ n ih =>
      simp only [List.replicate_succ, List.cons_append, digitsVal]
      rw [show charDigit '0' = some 0 from by decide]
      simpa using ih

/-- Parsing the decimal rendering of `n` (with any zero padding)
recovers `n`. -/
lemma digitsVal_padZeros_natRepr (k n : ℕ) :
    digitsVal (padZeros k (natRepr n)) 0 = some n := by
  unfold padZeros
  rw [digitsVal_replicate_zero]
  by_cases hn : n = 0
  · subst hn
    decide
  · unfold natRepr
    rw [if_neg hn]
    obtain ⟨hval, hdig⟩ := revDigitsAux_spec n n le_rfl
    rw [digitsVal_map_digitChar _ (fun d hd => hdig d (List.mem_reverse.mp hd)) 0]
    rw [List.foldl_reverse]
    exact congrArg some hval

/-- `natRepr` is never the empty string. -/
lemma natRepr_ne_nil (n : ℕ) : natRepr n ≠ [] := by
  unfold natRepr
  by_cases hn : n = 0
  · simp [hn]
  · rw [if_neg hn]
    intro hcon
    rw [List.map_eq_nil_iff, List.reverse_eq_nil_iff] at hcon
    cases n with
    | zero => exact hn rfl
    | succ m => simp [revDigitsAux] at hcon

/-- Every character of a zero-padded `natRepr` is a decimal digit. -/
lemma padZeros_natRepr_digits (k n : ℕ) (c : Char)
    (hc : c ∈ padZeros k (natRepr n)) : 48 ≤ c.toNat ∧ c.toNat ≤ 57 := by
  unfold padZeros at hc
  rcases List.mem_append.mp hc with hc | hc
  · have : c = '0' := List.eq_of_mem_replicate hc
    subst this
    decide
  · unfold natRepr at hc
    by_cases hn : n = 0
    · rw [if_pos hn] at hc
      rw [List.mem_singleton] at hc
      subst hc
      decide
    · rw [if_neg hn] at hc
      rcases List.mem_map.mp hc with ⟨d, hd, hdc⟩
      subst hdc
      exact digitChar_isDigit d
        ((revDigitsAux_spec n n le_rfl).2 d (List.mem_reverse.mp hd))

/-- Splitting a separator-free string returns it whole. -/
lemma splitOnChar_not_mem (sep : Char) (l : List Char) (h : sep ∉ l) :
    splitOnChar sep l = [l] := by
  induction l with
  | nil => rfl
  | cons c t ih =>
      have hc : c ≠ sep := fun hcs => h (hcs ▸ List.mem_cons_self c t)
      have ht : sep ∉ t := fun hm => h (List.mem_cons_of_mem c hm)
      simp only [splitOnChar, if_neg hc, ih ht]

/-- Splitting at the first separator after a separator-free prefix
yields the prefix as the first field. -/
lemma splitOnChar_append (sep : Char) (a rest : List Char) (h : sep ∉ a) :
    splitOnChar sep (a ++ sep :: rest) = a :: splitOnChar sep rest := by
  induction a with
  | nil => simp [splitOnChar]
  | cons c t ih =>
      have hc : c ≠ sep := fun hcs => h (hcs ▸ List.mem_cons_self c t)
      have ht : sep ∉ t := fun hm => h (List.mem_cons_of_mem c hm)
      simp only [List.cons_append, splitOnChar, if_neg hc]
      rw [show t.append (sep :: rest) = t ++ sep :: rest from rfl, ih ht]

/-- Parsing a zero-padded decimal rendering with Python `int` yields the
number. -/
lemma pyIntOfChars_padZeros_natRepr (k n : ℕ) :
    pyIntOfChars (padZeros k (natRepr n)) = some ((n : ℕ) : ℤ) := by
  unfold pyIntOfChars
  rw [if_neg ?_]
  · rw [digitsVal_padZeros_natRepr]
    rfl
  · intro hemp
    rw [List.isEmpty_iff] at hemp
    unfold padZeros at hemp
    rcases List.append_eq_nil.mp hemp with ⟨-, h2⟩
    exact natRepr_ne_nil n h2

/-- A nonnegative integer is rendered without a sign. -/
lemma intRepr_nonneg (z : ℤ) (hz : 0 ≤ z) : intRepr z = natRepr z.toNat := by
  unfold intRepr
  rw [if_neg (not_lt.mpr hz)]

/-- `pyInt` is the identity on (casts of) integers. -/
lemma pyInt_intCast (z : ℤ) : pyInt ((z : ℤ) : ℚ) = z := by
  unfold pyInt
  split
  · exact Int.floor_intCast z
  · exact Int.ceil_intCast z

/-- `int(a // b)` is the floor of the quotient. -/
lemma pyInt_pyFloorDiv (a b : ℚ) : pyInt (pyFloorDiv a b) = ⌊a / b⌋ := by
  unfold pyFloorDiv
  exact pyInt_intCast _

/-- `pyInt` of a nonnegative value is its floor. -/
lemma pyInt_of_nonneg (q : ℚ) (h : 0 ≤ q) : pyInt q = ⌊q⌋ := by
  unfold pyInt
  rw [if_pos h]

/-- Python `%` with a positive modulus is nonnegative. -/
lemma pyMod_nonneg (a b : ℚ) (hb : 0 < b) : 0 ≤ pyMod a b := by
  unfold pyMod
  rw [sub_nonneg]
  calc (b : ℚ) * ((⌊a / b⌋ : ℤ) : ℚ) ≤ b * (a / b) :=
        mul_le_mul_of_nonneg_left (Int.floor_le (a / b)) (le_of_lt hb)
    _ = a := by field_simp

/-- Python `%` with a positive modulus stays below the modulus. -/
lemma pyMod_lt (a b : ℚ) (hb : 0 < b) : pyMod a b < b := by
  unfold pyMod
  rw [sub_lt_iff_lt_add]
  calc a = b * (a / b) := by field_simp
    _ < b * (((⌊a / b⌋ : ℤ) : ℚ) + 1) := by
        exact mul_lt_mul_of_pos_left (Int.lt_floor_add_one (a / b)) hb
    _ = b + b * ((⌊a / b⌋ : ℤ) : ℚ) := by ring

/-- Floor of the Python remainder: `⌊a % m⌋ = ⌊a⌋ - m * ⌊a / m⌋`. -/
lemma floor_pyMod (a : ℚ) (m : ℤ) :
    ⌊pyMod a (m : ℚ)⌋ = ⌊a⌋ - m * ⌊a / (m : ℚ)⌋ := by
  unfold pyMod
  rw [show (m : ℚ) * ((⌊a / (m : ℚ)⌋ : ℤ) : ℚ) = ((m * ⌊a / (m : ℚ)⌋ : ℤ) : ℚ) by
    push_cast; ring]
  exact Int.floor_sub_int a _

/-- Floor of the minutes field: `⌊(a % 3600) / 60⌋ = ⌊a/60⌋ - 60 * ⌊a/3600⌋`. -/
lemma floor_pyMod_div (a : ℚ) :
    ⌊pyMod a 3600 / 60⌋ = ⌊a / 60⌋ - 60 * ⌊a / 3600⌋ := by
  unfold pyMod
  rw [show (a - 3600 * ((⌊a / 3600⌋ : ℤ) : ℚ)) / 60 =
      a / 60 - ((60 * ⌊a / 3600⌋ : ℤ) : ℚ) by push_cast; ring]
  exact Int.floor_sub_int _ _

/-- The colon never occurs in a padded decimal rendering. -/
lemma colon_not_in_pad (k n : ℕ) : (':' : Char) ∉ padZeros k (natRepr n) := by
  intro hm
  exact absurd (padZeros_natRepr_digits k n ':' hm) (by decide)

/-- The comma never occurs in a padded decimal rendering. -/
lemma comma_not_in_pad (k n : ℕ) : (',' : Char) ∉ padZeros k (natRepr n) := by
  intro hm
  exact absurd (padZeros_natRepr_digits k n ',' hm) (by decide)

/-- `parse_timestamp` on a well-shaped timestamp recovers and combines
the four numeric fields. -/
lemma parse_timestamp_fields (h m s ms : List Char)
    (hh : (':' : Char) ∉ h) (hm : (':' : Char) ∉ m)
    (hs : (':' : Char) ∉ s) (hms : (':' : Char) ∉ ms)
    (hcs : (',' : Char) ∉ s) (hcms : (',' : Char) ∉ ms) :
    parse_timestamp (h ++ ':' :: (m ++ ':' :: (s ++ ',' :: ms))) =
      (do
        let hv ← pyIntOfChars h
        let mv ← pyIntOfChars m
        let sv ← pyIntOfChars s
        let msv ← pyIntOfChars ms
        pure (hv * 3600000 + mv * 60000 + sv * 1000 + msv)) := by
  unfold parse_timestamp
  rw [splitOnChar_append ':' h _ hh, splitOnChar_append ':' m _ hm]
  have hno : (':' : Char) ∉ (s ++ ',' :: ms) := by
    intro hmem
    rcases List.mem_append.mp hmem with h1 | h1
    · exact hs h1
    · rcases List.mem_cons.mp h1 with h2 | h2
      · exact absurd h2 (by decide)
      · exact hms h2
  rw [splitOnChar_not_mem ':' _ hno]
  show parse_sec_fields h m (s ++ ',' :: ms) = _
  unfold parse_sec_fields
  rw [splitOnChar_append ',' s ms hcs, splitOnChar_not_mem ',' ms hcms]

/-- C10: for every nonnegative rational time `t`, parsing (with
`parse_timestamp`) the `HH:MM:SS,mmm` timestamp string that `write_srt`
formats for `t` yields exactly `⌊1000 * t⌋` milliseconds. -/
theorem c10_timestamp_roundtrip (t : ℚ) (ht : 0 ≤ t) :
    parse_timestamp (srtTimestamp t) = some ⌊1000 * t⌋ := by
  have h3600 : (0 : ℚ) < 3600 := by norm_num
  have h60 : (0 : ℚ) < 60 := by norm_num
  have h1000 : (0 : ℚ) < 1000 := by norm_num
  have hH : pyInt (pyFloorDiv t 3600) = ⌊t / 3600⌋ := pyInt_pyFloorDiv t 3600
  have hHnn : 0 ≤ ⌊t / 3600⌋ := Int.floor_nonneg.mpr (div_nonneg ht (by norm_num))
  have hM : pyInt (pyFloorDiv (pyMod t 3600) 60) = ⌊pyMod t 3600 / 60⌋ :=
    pyInt_pyFloorDiv _ _
  have hMval := floor_pyMod_div t
  have hMnn : 0 ≤ ⌊pyMod t 3600 / 60⌋ :=
    Int.floor_nonneg.mpr (div_nonneg (pyMod_nonneg t 3600 h3600) (by norm_num))
  have hS : pyInt (pyMod t 60) = ⌊pyMod t 60⌋ :=
    pyInt_of_nonneg _ (pyMod_nonneg t 60 h60)
  have hSval := floor_pyMod t 60
  push_cast at hSval
  have hSnn : 0 ≤ ⌊pyMod t 60⌋ := Int.floor_nonneg.mpr (pyMod_nonneg t 60 h60)
  have hMS : pyInt (pyMod (t * 1000) 1000) = ⌊pyMod (t * 1000) 1000⌋ :=
    pyInt_of_nonneg _ (pyMod_nonneg _ _ h1000)
  have hMSval := floor_pyMod (t * 1000) 1000
  push_cast at hMSval
  rw [show (t * 1000) / 1000 = t by field_simp] at hMSval
  have hMSnn : 0 ≤ ⌊pyMod (t * 1000) 1000⌋ :=
    Int.floor_nonneg.mpr (pyMod_nonneg _ _ h1000)
  unfold srtTimestamp
  rw [hH, hM, hS, hMS]
  rw [intRepr_nonneg _ hHnn, intRepr_nonneg _ hMnn, intRepr_nonneg _ hSnn,
    intRepr_nonneg _ hMSnn]
  rw [parse_timestamp_fields _ _ _ _
    (colon_not_in_pad _ _) (colon_not_in_pad _ _) (colon_not_in_pad _ _)
    (colon_not_in_pad _ _) (comma_not_in_pad _ _) (comma_not_in_pad _ _)]
  rw [pyIntOfChars_padZeros_natRepr, pyIntOfChars_padZeros_natRepr,
    pyIntOfChars_padZeros_natRepr, pyIntOfChars_padZeros_natRepr]
  show some (((⌊t / 3600⌋.toNat : ℕ) : ℤ) * 3600000 +
      ((⌊pyMod t 3600 / 60⌋.toNat : ℕ) : ℤ) * 60000 +
      ((⌊pyMod t 60⌋.toNat : ℕ) : ℤ) * 1000 +
      ((⌊pyMod (t * 1000) 1000⌋.toNat : ℕ) : ℤ)) = some ⌊1000 * t⌋
  rw [Int.toNat_of_nonneg hHnn, Int.toNat_of_nonneg hMnn,
    Int.toNat_of_nonneg hSnn, Int.toNat_of_nonneg hMSnn]
  congr 1
  rw [hMval, hSval, hMSval, show (1000 : ℚ) * t = t * 1000 from mul_comm _ _]
  ring

/-- Witness for C10 at `t = 3661.5` seconds: the formatted timestamp
`01:01:01,500` parses back to `3661500` ms `= ⌊1000 * 3661.5⌋`. -/
theorem c10_timestamp_roundtrip_attest :
    parse_timestamp (srtTimestamp (7323 / 2)) = some 3661500 := by
  have h := c10_timestamp_roundtrip (7323 / 2) (by norm_num)
  rw [h]
  congr 1
  norm_num

end Claims
